import Mathlib

set_option maxRecDepth 100000

/-!
# Verification of the FEAGI embodiment-controllers protocol core

Shallow embedding of the frame decoder, command decoder, command dispatcher
and pin mapper of the `feagi/embodiment-controllers` repository, together
with proofs of the spec's testable properties.

Bytes are modelled as `Nat` (values < 256 on the wire); the `heapless::Vec`
bounded vectors are modelled as Lean `List`s together with a capacity-checked
push (`pushCap`) whose failure is a silent no-op, exactly as the firmware
ignores the `Result` of `heapless::Vec::push`.

Embedded source files:
* `src/embodiments/microbit/firmware/src/protocol.rs` (`FeagiProtocol`)
* `src/embodiments/microbit/firmware/src/bluetooth.rs` (`BluetoothService`)
* `src/embodiments/microbit/firmware/src/main.rs` (BLE dispatch arms)
* `src/embodiments/esp32/firmware/controller/src/main.rs` (`parse_neuron_id`)
-/

/-- The `Command` enum from `protocol.rs` (the `bluetooth.rs` enum is identical). -/
inductive Command where
  | setGpio (pin : Nat) (value : Bool)
  | setPwm (pin : Nat) (duty : Nat)
  | setLedMatrix (data : List Nat)
  | neuronFiring (coordinates : List (Nat × Nat))
  | getCapabilities
  deriving DecidableEq, Repr

/-- Model of `heapless::Vec::push` with capacity `cap`: the element is appended when
there is room, otherwise the vector is returned unchanged (the firmware
ignores the returned `Err`). -/
def pushCap (cap : Nat) (v : List α) (x : α) : List α :=
  if v.length < cap then v ++ [x] else v

/-- The coordinate-collection loop of the `0x01` (NeuronFiring) arm of
`FeagiProtocol::parse_packets`: for `i in 0..count`, when
`1 + i*2 + 1 < payload.len()`, push `(payload[1+i*2], payload[1+i*2+1])`
into a capacity-25 vector, ignoring push failures. -/
def neuronCoords (payload : List Nat) (count : Nat) : List (Nat × Nat) :=
  (List.range count).foldl
    (fun acc i =>
      if 1 + i * 2 + 1 < payload.length then
        pushCap 25 acc (payload.getD (1 + i * 2) 0, payload.getD (1 + i * 2 + 1) 0)
      else acc)
    []

/-- The command-decoding `match` of `FeagiProtocol::parse_packets`, applied to
a complete frame's `cmd_id` and payload slice (so `payload.length` equals the
declared `payload_len`).  Unknown command ids decode to `none`. -/
def decodeFrame (cmdId : Nat) (payload : List Nat) : Option Command :=
  if cmdId = 0x01 then
    if 1 ≤ payload.length ∧ payload.length % 2 = 1 then
      some (Command.neuronFiring (neuronCoords payload (payload.getD 0 0)))
    else none
  else if cmdId = 0x02 then
    if payload.length = 2 then
      some (Command.setGpio (payload.getD 0 0) (payload.getD 1 0 ≠ 0))
    else none
  else if cmdId = 0x03 then
    if payload.length = 2 then
      some (Command.setPwm (payload.getD 0 0) (payload.getD 1 0))
    else none
  else if cmdId = 0x04 then
    if payload.length = 25 then some (Command.setLedMatrix payload) else none
  else if cmdId = 0x05 then
    some Command.getCapabilities
  else none

/-- One-step body of the `while` loop of `FeagiProtocol::parse_packets`,
expressed with explicit fuel.  Each iteration that fires removes
`2 + payload_len ≥ 2` bytes, so `fuel = buf.length` always suffices
(`parsePacketsF_mono` below makes the fuel irrelevant). -/
def parsePacketsF : Nat → List Nat → List Command → List Nat × List Command
  | 0, buf, cmds => (buf, cmds)
  | fuel + 1, buf, cmds =>
    if 2 ≤ buf.length ∧ 2 + buf.getD 1 0 ≤ buf.length then
      let plen := buf.getD 1 0
      let payload := (buf.drop 2).take plen
      let cmds' :=
        match decodeFrame (buf.getD 0 0) payload with
        | some c => pushCap 8 cmds c
        | none => cmds
      parsePacketsF fuel (buf.drop (2 + plen)) cmds'
    else (buf, cmds)

/-- The loop `FeagiProtocol::parse_packets`: repeatedly extract complete frames from
the front of the buffer, decoding each and appending the decoded command to
the capacity-8 command queue. -/
def parsePackets (buf : List Nat) (cmds : List Command) : List Nat × List Command :=
  parsePacketsF buf.length buf cmds

/-- State of a `FeagiProtocol` value: `rx_buffer: Vec<u8, 256>` and
`commands: Vec<Command, 8>`. -/
structure Feagi where
  rx_buffer : List Nat
  commands : List Command
  deriving DecidableEq, Repr

/-- The constructor `FeagiProtocol::new()`. -/
def feagiNew : Feagi := ⟨[], []⟩

/-- The byte-append loop of `FeagiProtocol::process_received_data`: each byte
is pushed into the capacity-256 buffer, push failures silently dropped. -/
def pushBytes (buf : List Nat) (data : List Nat) : List Nat :=
  data.foldl (pushCap 256) buf

/-- The ingest operation `FeagiProtocol::process_received_data`: append the data to the buffer
(capacity 256, overflowing bytes dropped) and parse packets. -/
def processReceivedData (s : Feagi) (data : List Nat) : Feagi :=
  let buf := pushBytes s.rx_buffer data
  let r := parsePackets buf s.commands
  ⟨r.1, r.2⟩

/-- The function `FeagiProtocol::receive_command`: pop the front of the command queue. -/
def receiveCommand (s : Feagi) : Option Command × Feagi :=
  match s.commands with
  | [] => (none, s)
  | c :: rest => (some c, ⟨s.rx_buffer, rest⟩)

/-!
## BluetoothService (`bluetooth.rs`)

The BLE service keeps its own `receive_buffer: Vec<u8, 256>` and parses a
different wire format: a NeuronFiring packet is
`[0x01] [count] [x1, y1, x2, y2, ...]` (the second byte is the coordinate
count, not a payload length).  `receive_command` parses only this packet
kind.
-/

/-- The append loop of `BluetoothService::process_received_data`: bytes are
pushed one at a time; on the first failed push the whole buffer is cleared
and the loop breaks. -/
def blePushBytes : List Nat → List Nat → List Nat
  | buf, [] => buf
  | buf, b :: rest =>
    if buf.length < 256 then blePushBytes (buf ++ [b]) rest else []

/-- The coordinate loop of `BluetoothService::parse_neuron_firing_packet`:
for `i in 0..count`, push `(buf[2+i*2], buf[2+i*2+1])` into a capacity-25
vector, breaking on the first failed push.  `remaining` counts the loop
iterations still to run (`count - i`). -/
def bleCoordsAux (buf : List Nat) : Nat → Nat → List (Nat × Nat) → List (Nat × Nat)
  | _, 0, acc => acc
  | i, remaining + 1, acc =>
    if acc.length < 25 then
      bleCoordsAux buf (i + 1) remaining
        (acc ++ [(buf.getD (2 + i * 2) 0, buf.getD (2 + i * 2 + 1) 0)])
    else acc

/-- The parser `BluetoothService::parse_neuron_firing_packet`: returns the parsed
coordinate list (if any) together with the buffer after the call (the
consumed `2 + count*2` bytes are removed by the shift-and-pop loop, which
amounts to `List.drop`). -/
def bleParseNeuronFiringPacket (buf : List Nat) : Option (List (Nat × Nat)) × List Nat :=
  if buf.length < 2 then (none, buf)
  else if buf.getD 0 0 ≠ 0x01 then (none, buf)
  else
    let count := buf.getD 1 0
    if 25 < count ∨ buf.length < 2 + count * 2 then (none, buf)
    else (some (bleCoordsAux buf 0 count []), buf.drop (2 + count * 2))

/-- The function `BluetoothService::receive_command`: parse a neuron-firing packet and wrap
it as a `Command::NeuronFiring` (no other packet kind is parsed). -/
def bleReceiveCommand (buf : List Nat) : Option Command × List Nat :=
  let r := bleParseNeuronFiringPacket buf
  (r.1.map (fun coords => Command.neuronFiring coords), r.2)

/-!
## BLE dispatch arms of `main.rs`

The 5×5 `display_buffer: [[u8; 5]; 5]` is modelled row-major as a flat list
of 25 brightness bytes; the cell `display_buffer[y][x]` is entry `y*5 + x`.
-/

/-- The all-off display buffer `[[0u8; 5]; 5]`. -/
def emptyGrid : List Nat := List.replicate 25 0

/-- Read `display_buffer[y][x]`. -/
def gridGet (g : List Nat) (x y : Nat) : Nat := g.getD (y * 5 + x) 0

/-- The `SetLedMatrix` dispatch arm of the BLE main loop: for each `i` in
`0..25`, write `data[i]` to `display_buffer[i/5][i%5]`. -/
def applySetLedMatrix (data : List Nat) (g : List Nat) : List Nat :=
  (List.range 25).foldl (fun acc i => acc.set (i / 5 * 5 + i % 5) (data.getD i 0)) g

/-- The `NeuronFiring` dispatch arm of the BLE main loop: the display buffer
is reset to all zeros, then each in-range coordinate `(x, y)` with `x < 5`
and `y < 5` is set to 255. -/
def applyNeuronFiring (coords : List (Nat × Nat)) (_g : List Nat) : List Nat :=
  coords.foldl
    (fun acc p => if p.1 < 5 ∧ p.2 < 5 then acc.set (p.2 * 5 + p.1) 255 else acc)
    emptyGrid

/-- The capabilities JSON literal of the `GetCapabilities` dispatch arm in
the BLE main loop, as its list of bytes. -/
def capabilitiesJson : List Nat :=
  ("\x7b\"sensors\":\x7b\"accel\":true,\"mag\":true,\"temp\":true,\"buttons\":true\x7d,\"gpio\":\x7b\"digital\":8,\"analog\":3,\"pwm\":8\x7d,\"display\":\x7b\"matrix\":true\x7d\x7d".toList).map Char.toNat

/-- The function `BluetoothService::get_capabilities_data`: copy the capability string's
bytes into a capacity-256 vector, stopping at the first failed push. -/
def getCapabilitiesData (caps : List Nat) : List Nat :=
  caps.foldl (fun acc b => if acc.length < 256 then acc ++ [b] else acc) []

/-- Effect of one BLE dispatch arm on the display buffer (the GPIO and
capabilities arms leave the display untouched). -/
def dispatchDisplay (cmd : Command) (g : List Nat) : List Nat :=
  match cmd with
  | Command.setLedMatrix data => applySetLedMatrix data g
  | Command.neuronFiring coords => applyNeuronFiring coords g
  | _ => g

/-!
## Pin mapper (`esp32/firmware/controller/src/main.rs`)
-/

/-- Rust's `str::parse::<u32>()` on a string (list of characters): an
optional leading `+`, then one or more ASCII digits, and the value must fit
a `u32`. -/
def parseU32 (s : List Char) : Option Nat :=
  let digits := match s with
    | '+' :: rest => rest
    | _ => s
  if digits.isEmpty then none
  else if digits.all (fun c => c.isDigit) then
    let n := digits.foldl (fun acc c => acc * 10 + (c.toNat - '0'.toNat)) 0
    if n < 2 ^ 32 then some n else none
  else none

/-- Rust's `str::rfind(':')`: index of the last `:` in the string, if any. -/
def rfindColon : List Char → Option Nat
  | [] => none
  | c :: rest =>
    match rfindColon rest with
    | some i => some (i + 1)
    | none => if c = ':' then some 0 else none

/-- The function `parse_neuron_id` from the ESP32 controller firmware: parse the whole
mapping as a `u32`; on failure, find the last `:` and parse the suffix after
it; otherwise `None`. -/
def parse_neuron_id (mapping : List Char) : Option Nat :=
  match parseU32 mapping with
  | some id => some id
  | none =>
    match rfindColon mapping with
    | some idx => parseU32 (mapping.drop (idx + 1))
    | none => none


/-!
## Auxiliary definitions used by the statements
-/

/-- The command queue after decoding the frame at the front of `buf`
(the decoded command, if any, pushed into the capacity-8 queue). -/
def stepCmds (buf : List Nat) (cmds : List Command) : List Command :=
  match decodeFrame (buf.getD 0 0) ((buf.drop 2).take (buf.getD 1 0)) with
  | some c => pushCap 8 cmds c
  | none => cmds

/-- A decoder state is quiescent when a further `parse_packets` call leaves
it unchanged; every state reached through `process_received_data` is. -/
def Quiescent (s : Feagi) : Prop :=
  parsePackets s.rx_buffer s.commands = (s.rx_buffer, s.commands)

/-- The well-formed NeuronFiring payload for a coordinate list: a count byte
followed by the flattened `(x, y)` pairs (`payload_len = 1 + 2 * count`). -/
def encodeNeuronPayload (ps : List (Nat × Nat)) : List Nat :=
  ps.length :: (ps.map (fun p => [p.1, p.2])).flatten

/-- Modelled from the spec: the substring after the last `:`, read off the
reversed string (for comparison with the code's `rfind`-based slicing). -/
def suffixAfterLastColon (s : List Char) : List Char :=
  (s.reverse.takeWhile (fun c => c ≠ ':')).reverse

/-- Modelled from the spec (§4.1 Pin Mapper contract): parse the mapping as
a bare unsigned integer; on failure, if the string contains `:`, parse the
suffix after the last `:`; otherwise `None`. -/
def resolve_neuron_id_spec (s : List Char) : Option Nat :=
  match parseU32 s with
  | some n => some n
  | none => if ':' ∈ s then parseU32 (suffixAfterLastColon s) else none

/-!
## Properties of the frame-decoder loop
-/

theorem parsePacketsF_mono (f : Nat) :
    ∀ (g : Nat) (buf : List Nat) (cmds : List Command), buf.length ≤ f → buf.length ≤ g →
      parsePacketsF f buf cmds = parsePacketsF g buf cmds := by
  induction f with
  | zero =>
    intro g buf cmds hf hg
    cases g with
    | zero => rfl
    | succ g =>
      have : ¬ (2 ≤ buf.length ∧ 2 + buf.getD 1 0 ≤ buf.length) := by omega
      simp only [parsePacketsF, this, if_false]
  | succ f ih =>
    intro g buf cmds hf hg
    cases g with
    | zero =>
      have : ¬ (2 ≤ buf.length ∧ 2 + buf.getD 1 0 ≤ buf.length) := by omega
      simp only [parsePacketsF, this, if_false]
    | succ g =>
      by_cases h : 2 ≤ buf.length ∧ 2 + buf.getD 1 0 ≤ buf.length
      · simp only [parsePacketsF, h, if_true]
        apply ih
        · simp only [List.length_drop]; omega
        · simp only [List.length_drop]; omega
      · simp only [parsePacketsF, h, if_false]

theorem parsePackets_step (buf : List Nat) (cmds : List Command)
    (h : 2 ≤ buf.length ∧ 2 + buf.getD 1 0 ≤ buf.length) :
    parsePackets buf cmds
      = parsePackets (buf.drop (2 + buf.getD 1 0)) (stepCmds buf cmds) := by
  obtain ⟨m, hm⟩ : ∃ m, buf.length = m + 1 := ⟨buf.length - 1, by omega⟩
  unfold parsePackets
  rw [hm]
  simp only [parsePacketsF, h, if_true]
  exact parsePacketsF_mono m (buf.drop (2 + buf.getD 1 0)).length
    (buf.drop (2 + buf.getD 1 0)) (stepCmds buf cmds)
    (by simp only [List.length_drop]; omega) (by simp only [List.length_drop]; omega)

theorem parsePackets_stop (buf : List Nat) (cmds : List Command)
    (h : ¬ (2 ≤ buf.length ∧ 2 + buf.getD 1 0 ≤ buf.length)) :
    parsePackets buf cmds = (buf, cmds) := by
  unfold parsePackets
  cases hl : buf.length with
  | zero => rfl
  | succ m =>
    simp only [parsePacketsF]
    rw [if_neg h]

theorem parsePackets_append (buf extra : List Nat) (cmds : List Command) :
    parsePackets (buf ++ extra) cmds
      = parsePackets ((parsePackets buf cmds).1 ++ extra) (parsePackets buf cmds).2 := by
  by_cases h : 2 ≤ buf.length ∧ 2 + buf.getD 1 0 ≤ buf.length
  · have hplen : (buf ++ extra).getD 1 0 = buf.getD 1 0 :=
      List.getD_append _ _ _ _ (by omega)
    have hid : (buf ++ extra).getD 0 0 = buf.getD 0 0 :=
      List.getD_append _ _ _ _ (by omega)
    have h' : 2 ≤ (buf ++ extra).length ∧ 2 + (buf ++ extra).getD 1 0 ≤ (buf ++ extra).length := by
      simp only [List.length_append, hplen]; omega
    have hdrop : (buf ++ extra).drop (2 + (buf ++ extra).getD 1 0)
        = buf.drop (2 + buf.getD 1 0) ++ extra := by
      rw [hplen, List.drop_append_of_le_length (by omega)]
    have hpay : ((buf ++ extra).drop 2).take ((buf ++ extra).getD 1 0)
        = (buf.drop 2).take (buf.getD 1 0) := by
      rw [hplen, List.drop_append_of_le_length (by omega),
        List.take_append_of_le_length (by simp only [List.length_drop]; omega)]
    have hstep : stepCmds (buf ++ extra) cmds = stepCmds buf cmds := by
      unfold stepCmds
      rw [hid, hpay]
    rw [parsePackets_step _ _ h', parsePackets_step _ _ h, hdrop, hstep]
    exact parsePackets_append (buf.drop (2 + buf.getD 1 0)) extra (stepCmds buf cmds)
  · rw [parsePackets_stop _ _ h]
termination_by buf.length
decreasing_by simp only [List.length_drop]; omega

theorem parsePackets_fst_stop (buf : List Nat) (cmds : List Command) :
    ¬ (2 ≤ (parsePackets buf cmds).1.length ∧
        2 + (parsePackets buf cmds).1.getD 1 0 ≤ (parsePackets buf cmds).1.length) := by
  by_cases h : 2 ≤ buf.length ∧ 2 + buf.getD 1 0 ≤ buf.length
  · rw [parsePackets_step _ _ h]
    exact parsePackets_fst_stop (buf.drop (2 + buf.getD 1 0)) (stepCmds buf cmds)
  · rw [parsePackets_stop _ _ h]
    exact h
termination_by buf.length
decreasing_by simp only [List.length_drop]; omega

theorem parsePackets_quiescent (buf : List Nat) (cmds : List Command) :
    parsePackets (parsePackets buf cmds).1 (parsePackets buf cmds).2
      = parsePackets buf cmds := by
  exact parsePackets_stop _ _ (parsePackets_fst_stop buf cmds)

theorem parsePackets_fst_length_le (buf : List Nat) (cmds : List Command) :
    (parsePackets buf cmds).1.length ≤ buf.length := by
  by_cases h : 2 ≤ buf.length ∧ 2 + buf.getD 1 0 ≤ buf.length
  · rw [parsePackets_step _ _ h]
    refine le_trans (parsePackets_fst_length_le _ _) ?_
    simp only [List.length_drop]; omega
  · rw [parsePackets_stop _ _ h]
termination_by buf.length
decreasing_by simp only [List.length_drop]; omega

theorem parsePackets_fst_indep (buf : List Nat) (cmds cmds' : List Command) :
    (parsePackets buf cmds).1 = (parsePackets buf cmds').1 := by
  by_cases h : 2 ≤ buf.length ∧ 2 + buf.getD 1 0 ≤ buf.length
  · rw [parsePackets_step _ _ h, parsePackets_step _ _ h]
    exact parsePackets_fst_indep _ _ _
  · rw [parsePackets_stop _ _ h, parsePackets_stop _ _ h]
termination_by buf.length
decreasing_by all_goals simp only [List.length_drop]; omega

theorem parsePackets_snd_full (buf : List Nat) (cmds : List Command)
    (hc : cmds.length = 8) : (parsePackets buf cmds).2 = cmds := by
  by_cases h : 2 ≤ buf.length ∧ 2 + buf.getD 1 0 ≤ buf.length
  · rw [parsePackets_step _ _ h]
    have hstep : stepCmds buf cmds = cmds := by
      unfold stepCmds
      cases decodeFrame (buf.getD 0 0) ((buf.drop 2).take (buf.getD 1 0)) with
      | none => rfl
      | some c =>
        simp only [pushCap, hc]
        norm_num
    rw [hstep]
    exact parsePackets_snd_full _ _ hc
  · rw [parsePackets_stop _ _ h]
termination_by buf.length
decreasing_by simp only [List.length_drop]; omega

theorem parsePackets_snd_length_le (buf : List Nat) (cmds : List Command)
    (hc : cmds.length ≤ 8) : (parsePackets buf cmds).2.length ≤ 8 := by
  by_cases h : 2 ≤ buf.length ∧ 2 + buf.getD 1 0 ≤ buf.length
  · rw [parsePackets_step _ _ h]
    refine parsePackets_snd_length_le _ _ ?_
    unfold stepCmds
    cases decodeFrame (buf.getD 0 0) ((buf.drop 2).take (buf.getD 1 0)) with
    | none => exact hc
    | some c =>
      simp only [pushCap]
      by_cases hlt : cmds.length < 8
      · simp only [hlt, if_true, List.length_append, List.length_singleton]
        omega
      · simp only [hlt, if_false]
        exact hc
  · rw [parsePackets_stop _ _ h]
    exact hc
termination_by buf.length
decreasing_by simp only [List.length_drop]; omega

theorem pushBytes_eq_take (data : List Nat) :
    ∀ buf : List Nat, pushBytes buf data = buf ++ data.take (256 - buf.length) := by
  induction data with
  | nil => intro buf; simp [pushBytes]
  | cons b rest ih =>
    intro buf
    by_cases h : buf.length < 256
    · have h1 : pushBytes buf (b :: rest) = pushBytes (buf ++ [b]) rest := by
        simp [pushBytes, List.foldl, pushCap, h]
      rw [h1, ih]
      have h2 : 256 - buf.length = (256 - (buf ++ [b]).length) + 1 := by
        simp only [List.length_append, List.length_singleton]; omega
      rw [h2, List.take_succ_cons]
      simp
    · have h1 : pushBytes buf (b :: rest) = pushBytes buf rest := by
        simp [pushBytes, List.foldl, pushCap, h]
      rw [h1, ih]
      have h2 : 256 - buf.length = 0 := by omega
      rw [h2]
      simp

theorem pushBytes_of_fits (buf data : List Nat) (h : buf.length + data.length ≤ 256) :
    pushBytes buf data = buf ++ data := by
  rw [pushBytes_eq_take, List.take_of_length_le (by omega)]

theorem pushBytes_length_le (buf data : List Nat) (h : buf.length ≤ 256) :
    (pushBytes buf data).length ≤ 256 := by
  rw [pushBytes_eq_take]
  simp only [List.length_append, List.length_take]
  omega

theorem processReceivedData_quiescent (s : Feagi) (data : List Nat) :
    Quiescent (processReceivedData s data) := by
  unfold Quiescent processReceivedData
  exact parsePackets_quiescent _ _

theorem processReceivedData_buf_le (s : Feagi) (data : List Nat)
    (h : s.rx_buffer.length ≤ 256) :
    (processReceivedData s data).rx_buffer.length ≤ 256 := by
  unfold processReceivedData
  exact le_trans (parsePackets_fst_length_le _ _) (pushBytes_length_le _ _ h)

theorem chunked_ingest (chunks : List (List Nat)) :
    ∀ s : Feagi, Quiescent s →
      s.rx_buffer.length + chunks.flatten.length ≤ 256 →
      List.foldl processReceivedData s chunks = processReceivedData s chunks.flatten := by
  induction chunks with
  | nil =>
    intro s hq _
    simp only [List.foldl_nil, List.flatten_nil]
    unfold processReceivedData
    have hp : pushBytes s.rx_buffer [] = s.rx_buffer := by simp [pushBytes]
    unfold Quiescent at hq
    simp only [hp, hq]
  | cons c rest ih =>
    intro s hq hlen
    simp only [List.flatten_cons, List.length_append] at hlen ⊢
    simp only [List.foldl_cons]
    have hc_fits : s.rx_buffer.length + c.length ≤ 256 := by
      have := List.length_append c rest.flatten ▸ hlen
      omega
    have hbuf1 : (processReceivedData s c).rx_buffer.length ≤ s.rx_buffer.length + c.length := by
      unfold processReceivedData
      refine le_trans (parsePackets_fst_length_le _ _) ?_
      rw [pushBytes_of_fits _ _ hc_fits]
      simp
    have hrest : (processReceivedData s c).rx_buffer.length + rest.flatten.length ≤ 256 := by
      have := List.length_append c rest.flatten ▸ hlen
      omega
    rw [ih (processReceivedData s c) (processReceivedData_quiescent s c) hrest]
    -- now: process (process s c) rest.flatten = process s (c ++ rest.flatten)
    unfold processReceivedData
    simp only
    rw [pushBytes_of_fits _ _ hc_fits]
    have hfits2 : (parsePackets (s.rx_buffer ++ c) s.commands).1.length
        + rest.flatten.length ≤ 256 := by
      have h1 : (parsePackets (s.rx_buffer ++ c) s.commands).1.length
          ≤ (s.rx_buffer ++ c).length := parsePackets_fst_length_le _ _
      simp only [List.length_append] at h1
      omega
    rw [pushBytes_of_fits _ _ hfits2]
    have hall : s.rx_buffer.length + (c ++ rest.flatten).length ≤ 256 := by
      simp only [List.length_append]; omega
    rw [pushBytes_of_fits _ _ hall, ← List.append_assoc]
    rw [parsePackets_append (s.rx_buffer ++ c) rest.flatten s.commands]

/-!
## Properties of the BLE receive buffer
-/

theorem blePushBytes_length_le (data : List Nat) :
    ∀ buf : List Nat, buf.length ≤ 256 → (blePushBytes buf data).length ≤ 256 := by
  induction data with
  | nil => intro buf h; simpa [blePushBytes] using h
  | cons b rest ih =>
    intro buf h
    by_cases hlt : buf.length < 256
    · rw [show blePushBytes buf (b :: rest) = blePushBytes (buf ++ [b]) rest from by
        simp [blePushBytes, hlt]]
      exact ih _ (by simp only [List.length_append, List.length_singleton]; omega)
    · simp [blePushBytes, hlt]

theorem blePushBytes_overflow (data : List Nat) :
    ∀ buf : List Nat, buf.length ≤ 256 → 256 < buf.length + data.length →
      blePushBytes buf data = [] := by
  induction data with
  | nil =>
    intro buf h1 h2
    exfalso
    simp only [List.length_nil, Nat.add_zero] at h2
    omega
  | cons b rest ih =>
    intro buf h1 h2
    by_cases hlt : buf.length < 256
    · rw [show blePushBytes buf (b :: rest) = blePushBytes (buf ++ [b]) rest from by
        simp [blePushBytes, hlt]]
      refine ih _ (by simp only [List.length_append, List.length_singleton]; omega) ?_
      simp only [List.length_append, List.length_singleton, List.length_cons] at h2 ⊢
      omega
    · simp [blePushBytes, hlt]

/-!
## Claim theorems
-/

/-- C1 (counterexample): the claim fails as stated.  The 257-byte stream
`[0xFF, 0xFB] ++ 251 filler bytes ++ [0x02, 0x02, 0x07, 0x01]` ingested in
one call loses its final byte to the 256-byte capacity (truncation), so the
trailing `SetGpio` frame never completes and nothing is decoded; the same
stream ingested as two chunks decodes `SetGpio{pin: 7, value: true}`. -/
theorem ingest_chunk_dependence_over_capacity :
    (processReceivedData feagiNew
        ([255, 251] ++ List.replicate 251 0 ++ [2, 2, 7, 1])).commands = []
    ∧ (processReceivedData
        (processReceivedData feagiNew ([255, 251] ++ List.replicate 251 0))
        [2, 2, 7, 1]).commands = [Command.setGpio 7 true] := by
  constructor
  · decide
  · decide

/-- C1 (amended): for every byte stream whose total length is at most the
accumulator capacity (256 bytes) and every way of splitting it into chunks,
feeding the chunks one at a time to `process_received_data` from a fresh
`FeagiProtocol` produces exactly the same final state — accumulator and
decoded Command sequence — as feeding the whole stream in one call; in
particular a frame whose bytes span two calls is decoded once the remaining
bytes arrive.  (Streams longer than the capacity can decode differently:
`ingest_chunk_dependence_over_capacity`.) -/
theorem ingest_chunk_independent (chunks : List (List Nat))
    (h : chunks.flatten.length ≤ 256) :
    List.foldl processReceivedData feagiNew chunks
      = processReceivedData feagiNew chunks.flatten :=
  chunked_ingest chunks feagiNew rfl (by simpa [feagiNew] using h)

/-- Witness for `ingest_chunk_independent`: a NeuronFiring frame split
across two calls. -/
theorem ingest_chunk_independent_witness :
    ([[1], [1, 0]] : List (List Nat)).flatten.length ≤ 256
    ∧ List.foldl processReceivedData feagiNew [[1], [1, 0]]
        = processReceivedData feagiNew ([[1], [1, 0]] : List (List Nat)).flatten :=
  ⟨by decide, ingest_chunk_independent [[1], [1, 0]] (by decide)⟩

/-- C3: feeding `[0x01, 0x02, 0x01, 0x02, 0x03, 0x04]` to the BLE decoder
(`BluetoothService::process_received_data` then `receive_command`) yields
exactly `NeuronFiring{coordinates: [(1,2),(3,4)]}`, consuming the packet. -/
theorem neuronFiring_scenario_end_to_end :
    bleReceiveCommand (blePushBytes [] [1, 2, 1, 2, 3, 4])
      = (some (Command.neuronFiring [(1, 2), (3, 4)]), []) := by decide

/-- C4: a complete frame whose command id is not one of `0x01..0x05` decodes
to no Command, but its `2 + payload_len` bytes are still consumed, leaving
precisely the rest of the stream to be parsed — so later frames are decoded
exactly as if the unknown frame had never been present, and the decoder
never stalls on it. -/
theorem unknown_id_frame_consumed (id plen : Nat) (payload rest : List Nat)
    (cmds : List Command) (hlen : payload.length = plen)
    (hid : id ∉ ([1, 2, 3, 4, 5] : List Nat)) :
    parsePackets (id :: plen :: (payload ++ rest)) cmds = parsePackets rest cmds := by
  have hids : id ≠ 1 ∧ id ≠ 2 ∧ id ≠ 3 ∧ id ≠ 4 ∧ id ≠ 5 := by
    refine ⟨?_, ?_, ?_, ?_, ?_⟩ <;> intro h <;> subst h <;> simp at hid
  have hg1 : (id :: plen :: (payload ++ rest)).getD 1 0 = plen := rfl
  have hcond : 2 ≤ (id :: plen :: (payload ++ rest)).length
      ∧ 2 + (id :: plen :: (payload ++ rest)).getD 1 0
          ≤ (id :: plen :: (payload ++ rest)).length := by
    constructor
    · simp
    · simp only [hg1, List.length_cons, List.length_append, hlen]
      omega
  rw [parsePackets_step _ _ hcond]
  have hdrop : (id :: plen :: (payload ++ rest)).drop
      (2 + (id :: plen :: (payload ++ rest)).getD 1 0) = rest := by
    rw [hg1, Nat.add_comm 2 plen]
    show (payload ++ rest).drop plen = rest
    rw [← hlen]
    exact List.drop_left payload rest
  have hstep : stepCmds (id :: plen :: (payload ++ rest)) cmds = cmds := by
    unfold stepCmds
    have hpay : (((id :: plen :: (payload ++ rest)).drop 2).take
        ((id :: plen :: (payload ++ rest)).getD 1 0)) = payload := by
      rw [hg1]
      show (payload ++ rest).take plen = payload
      rw [← hlen, List.take_left]
    rw [hpay]
    show (match decodeFrame id payload with
      | some c => pushCap 8 cmds c
      | none => cmds) = cmds
    have hdec : decodeFrame id payload = none := by
      simp [decodeFrame, hids.1, hids.2.1, hids.2.2.1, hids.2.2.2.1, hids.2.2.2.2]
    rw [hdec]
  rw [hdrop, hstep]

/-- Witness for `unknown_id_frame_consumed`: an unknown id `0xAA` frame with
one payload byte, followed by a `GetCapabilities` frame that still decodes. -/
theorem unknown_id_frame_consumed_witness :
    ([9] : List Nat).length = 1
    ∧ (170 : Nat) ∉ ([1, 2, 3, 4, 5] : List Nat)
    ∧ parsePackets (170 :: 1 :: ([9] ++ [5, 0])) [] = parsePackets [5, 0] []
    ∧ (parsePackets [5, 0] []).2 = [Command.getCapabilities] :=
  ⟨by decide, by decide,
   unknown_id_frame_consumed 170 1 [9] [5, 0] [] (by decide) (by decide),
   by decide⟩

/-- C5 (counterexample): the claim fails as stated for `FeagiProtocol`.
Feeding 300 bytes of `0xFF` (no frame boundary ever completes, since the
declared `payload_len` 255 needs 257 buffered bytes) leaves the accumulator
holding the first 256 bytes — truncated, not cleared — and decodes no
Command. -/
theorem feagi_overflow_truncates_not_clears :
    (processReceivedData feagiNew (List.replicate 300 255)).rx_buffer
        = List.replicate 256 255
    ∧ (processReceivedData feagiNew (List.replicate 300 255)).commands = []
    ∧ List.replicate 256 (255 : Nat) ≠ [] := by
  have hpush : pushBytes [] (List.replicate 300 (255 : Nat)) = List.replicate 256 255 := by
    rw [pushBytes_eq_take, show (300 : Nat) = 256 + 44 from rfl, List.replicate_add,
      List.nil_append, List.length_nil, Nat.sub_zero,
      List.take_append_of_le_length (by simp), List.take_of_length_le (by simp)]
  have hg : (List.replicate 256 (255 : Nat)).getD 1 0 = 255 := by
    rw [List.getD_eq_getElem _ _ (by simp)]
    exact List.getElem_replicate _ _
  have hstop : parsePackets (List.replicate 256 (255 : Nat)) [] = (List.replicate 256 255, []) :=
    parsePackets_stop _ _ (by rw [hg]; simp)
  have hrun : processReceivedData feagiNew (List.replicate 300 255)
      = ⟨List.replicate 256 255, []⟩ := by
    unfold processReceivedData
    simp only [feagiNew, hpush, hstop]
  rw [hrun]
  exact ⟨rfl, rfl, by simp⟩

/-- C5 (amended): neither receive accumulator ever exceeds its 256-byte
capacity.  On an ingest call that would push past capacity, the BLE-service
accumulator (`bluetooth.rs`) is cleared to empty; the `FeagiProtocol`
accumulator (`protocol.rs`) instead silently drops the bytes that do not
fit, keeping its current contents. -/
theorem accumulator_capacity_amended :
    (∀ (s : Feagi) (data : List Nat), s.rx_buffer.length ≤ 256 →
        (processReceivedData s data).rx_buffer.length ≤ 256)
    ∧ (∀ buf data : List Nat, buf.length ≤ 256 →
        (blePushBytes buf data).length ≤ 256)
    ∧ (∀ buf data : List Nat, buf.length ≤ 256 → 256 < buf.length + data.length →
        blePushBytes buf data = []) :=
  ⟨fun s data h => processReceivedData_buf_le s data h,
   fun buf data h => blePushBytes_length_le data buf h,
   fun buf data h1 h2 => blePushBytes_overflow data buf h1 h2⟩

/-- Witness for `accumulator_capacity_amended`: 300 bytes into a fresh
`FeagiProtocol` stay within capacity; 300 bytes into a fresh BLE buffer
clear it. -/
theorem accumulator_capacity_amended_witness :
    (feagiNew.rx_buffer.length ≤ 256
      ∧ (processReceivedData feagiNew (List.replicate 300 255)).rx_buffer.length ≤ 256)
    ∧ (([] : List Nat).length ≤ 256 ∧ (blePushBytes [] (List.replicate 300 1)).length ≤ 256)
    ∧ (([] : List Nat).length ≤ 256 ∧ 256 < ([] : List Nat).length + (List.replicate 300 1).length
        ∧ blePushBytes [] (List.replicate 300 1) = []) :=
  ⟨⟨by decide, accumulator_capacity_amended.1 feagiNew (List.replicate 300 255) (by decide)⟩,
   ⟨by decide, accumulator_capacity_amended.2.1 [] (List.replicate 300 1) (by decide)⟩,
   ⟨by decide, by decide,
    accumulator_capacity_amended.2.2 [] (List.replicate 300 1) (by decide) (by decide)⟩⟩

/-- C8 (code-bug evaluation): `[0x05, 0x00]` fed to the BLE service is
buffered but `receive_command` returns no Command (it parses only
NeuronFiring packets), so the `GetCapabilities` dispatch arm — whose reply,
`get_capabilities_data` of the capabilities JSON, is non-empty — is never
reached and nothing is placed in the outbound slot.  The `FeagiProtocol`
frame decoder does decode the same bytes to `GetCapabilities`, but the USB
main loop's dispatch arm for it is an empty TODO. -/
theorem getCapabilities_scenario_evaluation :
    bleReceiveCommand (blePushBytes [] [5, 0]) = (none, [5, 0])
    ∧ (processReceivedData feagiNew [5, 0]).commands = [Command.getCapabilities]
    ∧ getCapabilitiesData capabilitiesJson ≠ [] := by
  refine ⟨by decide, by decide, by decide⟩

/-- C10: the pending-command queue holds at most 8 Commands; when it is
full, a further decoded Command is silently discarded (the queue is
unchanged) while the frame's bytes are still removed — the buffer evolves
exactly as it would with an empty queue, so decoding always advances. -/
theorem command_queue_capacity_eight (buf : List Nat) (cmds : List Command)
    (hle : cmds.length ≤ 8) :
    (parsePackets buf cmds).2.length ≤ 8
    ∧ (cmds.length = 8 →
        (parsePackets buf cmds).2 = cmds
        ∧ (parsePackets buf cmds).1 = (parsePackets buf []).1) :=
  ⟨parsePackets_snd_length_le buf cmds hle,
   fun h8 => ⟨parsePackets_snd_full buf cmds h8, parsePackets_fst_indep buf cmds []⟩⟩

/-- Witness for `command_queue_capacity_eight`: a full queue of 8 commands
and a ninth decodable `GetCapabilities` frame, which is consumed but
discarded. -/
theorem command_queue_capacity_eight_witness :
    (List.replicate 8 Command.getCapabilities).length ≤ 8
    ∧ (parsePackets [5, 0] (List.replicate 8 Command.getCapabilities)).2.length ≤ 8
    ∧ ((List.replicate 8 Command.getCapabilities).length = 8 →
        (parsePackets [5, 0] (List.replicate 8 Command.getCapabilities)).2
            = List.replicate 8 Command.getCapabilities
        ∧ (parsePackets [5, 0] (List.replicate 8 Command.getCapabilities)).1
            = (parsePackets [5, 0] []).1) :=
  ⟨by decide,
   (command_queue_capacity_eight [5, 0] (List.replicate 8 Command.getCapabilities) (by decide)).1,
   (command_queue_capacity_eight [5, 0] (List.replicate 8 Command.getCapabilities) (by decide)).2⟩

/-- C6: once the two bytes at the front of the `FeagiProtocol` accumulator
declare a `payload_len` of 255 (so the frame needs `2 + 255 = 257 > 256`
buffered bytes, which the capacity-256 accumulator can never hold), no
sequence of further `process_received_data` calls ever removes a byte from
the accumulator (the old contents stay as a prefix, only truncated appends
extend it) or changes the command queue: the decoder stalls permanently on
that frame header. -/
theorem oversized_frame_stalls_decoder (chunks : List (List Nat)) :
    ∀ s : Feagi, 2 ≤ s.rx_buffer.length → 255 ≤ s.rx_buffer.getD 1 0 →
      s.rx_buffer.length ≤ 256 →
      (List.foldl processReceivedData s chunks).commands = s.commands
      ∧ ∃ t, (List.foldl processReceivedData s chunks).rx_buffer = s.rx_buffer ++ t := by
  induction chunks with
  | nil =>
    intro s _ _ _
    exact ⟨rfl, [], by simp⟩
  | cons c rest ih =>
    intro s h2 h255 hcap
    have hpb : pushBytes s.rx_buffer c
        = s.rx_buffer ++ c.take (256 - s.rx_buffer.length) :=
      pushBytes_eq_take c s.rx_buffer
    have hlen2 : (s.rx_buffer ++ c.take (256 - s.rx_buffer.length)).length ≤ 256 := by
      have h := pushBytes_length_le s.rx_buffer c hcap
      rw [hpb] at h
      exact h
    have hg1 : (s.rx_buffer ++ c.take (256 - s.rx_buffer.length)).getD 1 0
        = s.rx_buffer.getD 1 0 :=
      List.getD_append _ _ _ _ (by omega)
    have hstop : parsePackets (s.rx_buffer ++ c.take (256 - s.rx_buffer.length)) s.commands
        = (s.rx_buffer ++ c.take (256 - s.rx_buffer.length), s.commands) := by
      refine parsePackets_stop _ _ ?_
      rw [hg1]
      intro hcond
      omega
    have hps : processReceivedData s c
        = ⟨s.rx_buffer ++ c.take (256 - s.rx_buffer.length), s.commands⟩ := by
      unfold processReceivedData
      simp only [hpb, hstop]
    simp only [List.foldl_cons, hps]
    have hnext := ih ⟨s.rx_buffer ++ c.take (256 - s.rx_buffer.length), s.commands⟩
      (by simp only [List.length_append]; omega)
      (by simpa only [hg1] using h255)
      hlen2
    refine ⟨hnext.1, ?_⟩
    obtain ⟨t, ht⟩ := hnext.2
    exact ⟨c.take (256 - s.rx_buffer.length) ++ t, by rw [ht, List.append_assoc]⟩

/-- Witness for `oversized_frame_stalls_decoder`: a stuck header `[255, 255]`
absorbs a further `GetCapabilities` frame without decoding anything. -/
theorem oversized_frame_stalls_decoder_witness :
    2 ≤ ([255, 255] : List Nat).length
    ∧ 255 ≤ ([255, 255] : List Nat).getD 1 0
    ∧ ([255, 255] : List Nat).length ≤ 256
    ∧ (List.foldl processReceivedData ⟨[255, 255], []⟩ [[5, 0]]).commands = []
    ∧ ∃ t, (List.foldl processReceivedData ⟨[255, 255], []⟩ [[5, 0]]).rx_buffer
        = [255, 255] ++ t :=
  ⟨by decide, by decide, by decide,
   (oversized_frame_stalls_decoder [[5, 0]] ⟨[255, 255], []⟩ (by decide) (by decide)
     (by decide)).1,
   (oversized_frame_stalls_decoder [[5, 0]] ⟨[255, 255], []⟩ (by decide) (by decide)
     (by decide)).2⟩

/-- C2 (counterexample): the claim fails as stated.  The complete frame
`[0x01, 0x03, 0x05, 0x01, 0x02]` has `count = 5` and `payload_len = 3 ≠
1 + 2*5`, so the claim requires it to be dropped; the decoder nevertheless
produces `NeuronFiring{coordinates: [(1, 2)]}` because it only checks that
`payload_len` is odd and at least 1. -/
theorem neuronFiring_validation_claim_false :
    (processReceivedData feagiNew [1, 3, 5, 1, 2]).commands
        = [Command.neuronFiring [(1, 2)]]
    ∧ (3 : Nat) ≠ 1 + 2 * 5 := by
  refine ⟨by decide, by decide⟩

theorem flatPairs_length (ps : List (Nat × Nat)) :
    ((ps.map (fun p => [p.1, p.2])).flatten).length = 2 * ps.length := by
  induction ps with
  | nil => simp
  | cons p rest ih =>
    simp only [List.map_cons, List.flatten_cons, List.length_append, ih, List.length_cons,
      List.length_nil]
    omega

theorem flatPairs_getD (ps : List (Nat × Nat)) :
    ∀ i, i < ps.length →
      ((ps.map (fun p => [p.1, p.2])).flatten.getD (2 * i) 0 = (ps.getD i (0, 0)).1
       ∧ (ps.map (fun p => [p.1, p.2])).flatten.getD (2 * i + 1) 0
          = (ps.getD i (0, 0)).2) := by
  induction ps with
  | nil => intro i h; simp at h
  | cons p rest ih =>
    intro i h
    cases i with
    | zero => simp
    | succ j =>
      have hj : j < rest.length := by
        simp only [List.length_cons] at h
        omega
      have hrec := ih j hj
      have h2 : 2 * (j + 1) = (2 * j + 1) + 1 := by ring
      simp only [List.map_cons, List.flatten_cons, List.cons_append, List.nil_append, h2,
        List.getD_cons_succ, List.getD_cons_zero]
      exact hrec

theorem neuronCoords_fold (payload : List Nat) :
    ∀ (count : Nat) (acc : List (Nat × Nat)),
      (∀ i, i < count → 1 + i * 2 + 1 < payload.length) →
      acc.length + count ≤ 25 →
      (List.range count).foldl
        (fun acc i =>
          if 1 + i * 2 + 1 < payload.length then
            pushCap 25 acc (payload.getD (1 + i * 2) 0, payload.getD (1 + i * 2 + 1) 0)
          else acc) acc
      = acc ++ (List.range count).map
          (fun i => (payload.getD (1 + i * 2) 0, payload.getD (1 + i * 2 + 1) 0)) := by
  intro count
  induction count with
  | zero => intro acc _ _; simp
  | succ n ih =>
    intro acc hg hcap
    rw [List.range_succ, List.foldl_append,
      ih acc (fun i hi => hg i (by omega)) (by omega)]
    simp only [List.foldl_cons, List.foldl_nil]
    rw [if_pos (hg n (by omega))]
    have hsp : (acc ++ (List.range n).map
        (fun i => (payload.getD (1 + i * 2) 0, payload.getD (1 + i * 2 + 1) 0))).length
          < 25 := by
      simp only [List.length_append, List.length_map, List.length_range]
      omega
    unfold pushCap
    rw [if_pos hsp, List.map_append, List.append_assoc]
    simp

theorem neuronCoords_encode (ps : List (Nat × Nat)) (h : ps.length ≤ 25) :
    neuronCoords (encodeNeuronPayload ps) ps.length = ps := by
  have hlen : (encodeNeuronPayload ps).length = 1 + 2 * ps.length := by
    simp only [encodeNeuronPayload, List.length_cons, flatPairs_length]
    omega
  unfold neuronCoords
  rw [neuronCoords_fold (encodeNeuronPayload ps) ps.length []
    (fun i hi => by rw [hlen]; omega) (by simpa using h)]
  rw [List.nil_append]
  apply List.ext_getElem
  · simp
  · intro i h1 h2
    have hi : i < ps.length := by simpa using h2
    have hget := flatPairs_getD ps i hi
    have e1 : (encodeNeuronPayload ps).getD (1 + i * 2) 0
        = ((ps.map (fun p => [p.1, p.2])).flatten).getD (2 * i) 0 := by
      unfold encodeNeuronPayload
      rw [show 1 + i * 2 = (2 * i) + 1 from by ring]
      exact List.getD_cons_succ
    have e2 : (encodeNeuronPayload ps).getD (1 + i * 2 + 1) 0
        = ((ps.map (fun p => [p.1, p.2])).flatten).getD (2 * i + 1) 0 := by
      unfold encodeNeuronPayload
      rw [show 1 + i * 2 + 1 = (2 * i + 1) + 1 from by ring]
      exact List.getD_cons_succ
    simp only [List.getElem_map, List.getElem_range, e1, e2, hget.1, hget.2]
    rw [List.getD_eq_getElem _ _ hi]

/-- C2 (amended): for a complete frame with command id `0x01`, the decoder
produces a NeuronFiring Command exactly when the payload length is odd (and
hence at least 1) — the relation `payload_len = 1 + 2*count` and the bound
`count ≤ 25` are not checked; any even-length (including empty) payload is
dropped without producing a Command.  On well-formed payloads
(`payload_len = 1 + 2*count`, `count ≤ 25`) the decoded coordinate list is
exactly the encoded one. -/
theorem neuronFiring_decode_characterization :
    (∀ payload : List Nat,
        (decodeFrame 1 payload).isSome ↔ (1 ≤ payload.length ∧ payload.length % 2 = 1))
    ∧ (∀ ps : List (Nat × Nat), ps.length ≤ 25 →
        decodeFrame 1 (encodeNeuronPayload ps) = some (Command.neuronFiring ps)) := by
  constructor
  · intro payload
    by_cases h : 1 ≤ payload.length ∧ payload.length % 2 = 1 <;> simp [decodeFrame, h]
  · intro ps h
    have hcond : 1 ≤ (encodeNeuronPayload ps).length
        ∧ (encodeNeuronPayload ps).length % 2 = 1 := by
      simp only [encodeNeuronPayload, List.length_cons, flatPairs_length]
      omega
    have hhead : (encodeNeuronPayload ps).getD 0 0 = ps.length := List.getD_cons_zero
    simp only [decodeFrame, if_pos rfl, hcond, and_self, if_true, hhead,
      neuronCoords_encode ps h]

/-- Witness for `neuronFiring_decode_characterization`: the well-formed
two-coordinate payload `[2, 1, 2, 3, 4]` decodes back to its coordinates. -/
theorem neuronFiring_decode_characterization_witness :
    ([(1, 2), (3, 4)] : List (Nat × Nat)).length ≤ 25
    ∧ decodeFrame 1 (encodeNeuronPayload [(1, 2), (3, 4)])
        = some (Command.neuronFiring [(1, 2), (3, 4)])
    ∧ ((decodeFrame 1 [0]).isSome
        ↔ (1 ≤ ([0] : List Nat).length ∧ ([0] : List Nat).length % 2 = 1)) :=
  ⟨by decide,
   neuronFiring_decode_characterization.2 [(1, 2), (3, 4)] (by decide),
   neuronFiring_decode_characterization.1 [0]⟩

theorem getD_set_ne (l : List Nat) (i j v : Nat) (h : i ≠ j) :
    (l.set i v).getD j 0 = l.getD j 0 := by
  rw [List.getD_eq_getElem?_getD, List.getD_eq_getElem?_getD, List.getElem?_set_ne h]

theorem getD_set_self (l : List Nat) (i v : Nat) (h : i < l.length) :
    (l.set i v).getD i 0 = v := by
  rw [List.getD_eq_getElem?_getD, List.getElem?_set_self h]
  rfl

theorem emptyGrid_getD (i : Nat) : emptyGrid.getD i 0 = 0 := by
  unfold emptyGrid
  rw [List.getD_eq_getElem?_getD]
  exact List.getElem?_getD_replicate_default_eq 0 25 i

theorem neuronFold_getD (x y : Nat) (hx : x < 5) (hy : y < 5) :
    ∀ (coords : List (Nat × Nat)) (acc : List Nat), acc.length = 25 →
      (coords.foldl
        (fun acc p => if p.1 < 5 ∧ p.2 < 5 then acc.set (p.2 * 5 + p.1) 255 else acc)
        acc).getD (y * 5 + x) 0
      = if (x, y) ∈ coords then 255 else acc.getD (y * 5 + x) 0 := by
  intro coords
  induction coords with
  | nil => intro acc _; simp
  | cons p rest ih =>
    intro acc hacc
    obtain ⟨a, b⟩ := p
    have hlen : ((if a < 5 ∧ b < 5 then acc.set (b * 5 + a) 255 else acc)).length = 25 := by
      by_cases hr : a < 5 ∧ b < 5 <;> simp [hr, hacc]
    rw [List.foldl_cons, ih _ hlen]
    by_cases hmem : (x, y) ∈ rest
    · simp [hmem]
    · rw [if_neg hmem]
      by_cases heq : ((x : Nat), (y : Nat)) = (a, b)
      · have hax : a = x := by
          have := congrArg Prod.fst heq
          simpa using this.symm
        have hby : b = y := by
          have := congrArg Prod.snd heq
          simpa using this.symm
        rw [hax, hby, if_pos (show x < 5 ∧ y < 5 from ⟨hx, hy⟩),
          if_pos (show ((x : Nat), (y : Nat)) ∈ (x, y) :: rest from by simp)]
        exact getD_set_self acc (y * 5 + x) 255 (by rw [hacc]; omega)
      · have hmemc : ((x : Nat), (y : Nat)) ∉ (a, b) :: rest := by
          simp only [List.mem_cons]
          intro hor
          rcases hor with h1 | h2
          · exact heq h1
          · exact hmem h2
        rw [if_neg hmemc]
        by_cases hr : a < 5 ∧ b < 5
        · rw [if_pos hr]
          refine getD_set_ne acc (b * 5 + a) (y * 5 + x) 255 ?_
          intro hix
          apply heq
          have hax : x = a ∧ y = b := by omega
          rw [hax.1, hax.2]
        · rw [if_neg hr]

/-- C7: dispatching a `NeuronFiring` command clears the whole 5×5 display
buffer before setting the pixels named by its coordinate list, so after
`SetLedMatrix` followed immediately by `NeuronFiring`, exactly the pixels at
the NeuronFiring coordinates with `x < 5` and `y < 5` hold 255 (lit) and
every other pixel holds 0 (off): replace semantics, not accumulate. -/
theorem neuronFiring_display_replace (data : List Nat) (coords : List (Nat × Nat))
    (g : List Nat) (x y : Nat) (hx : x < 5) (hy : y < 5) :
    gridGet (dispatchDisplay (Command.neuronFiring coords)
        (dispatchDisplay (Command.setLedMatrix data) g)) x y
      = if (x, y) ∈ coords then 255 else 0 := by
  show gridGet (applyNeuronFiring coords (applySetLedMatrix data g)) x y = _
  unfold applyNeuronFiring gridGet
  rw [neuronFold_getD x y hx hy coords emptyGrid (by simp [emptyGrid])]
  rw [emptyGrid_getD]

/-- Witness for `neuronFiring_display_replace`: after a full-brightness
`SetLedMatrix` and a `NeuronFiring` at `(1, 2)`, pixel `(1, 2)` is 255 and
pixel `(0, 0)` is 0. -/
theorem neuronFiring_display_replace_witness :
    (1 : Nat) < 5 ∧ (2 : Nat) < 5 ∧ (0 : Nat) < 5
    ∧ gridGet (dispatchDisplay (Command.neuronFiring [(1, 2)])
        (dispatchDisplay (Command.setLedMatrix (List.replicate 25 200)) emptyGrid)) 1 2
        = (if ((1 : Nat), (2 : Nat)) ∈ ([(1, 2)] : List (Nat × Nat)) then 255 else 0)
    ∧ gridGet (dispatchDisplay (Command.neuronFiring [(1, 2)])
        (dispatchDisplay (Command.setLedMatrix (List.replicate 25 200)) emptyGrid)) 0 0
        = (if ((0 : Nat), (0 : Nat)) ∈ ([(1, 2)] : List (Nat × Nat)) then 255 else 0) :=
  ⟨by decide, by decide, by decide,
   neuronFiring_display_replace (List.replicate 25 200) [(1, 2)] emptyGrid 1 2
     (by decide) (by decide),
   neuronFiring_display_replace (List.replicate 25 200) [(1, 2)] emptyGrid 0 0
     (by decide) (by decide)⟩

theorem takeWhile_append_left {p : Char → Bool} (l l' : List Char) (a : Char)
    (ha : a ∈ l) (hpa : p a = false) : (l ++ l').takeWhile p = l.takeWhile p := by
  induction l with
  | nil => simp at ha
  | cons c rest ih =>
    by_cases hc : p c
    · have hrest : a ∈ rest := by
        rcases List.mem_cons.mp ha with h1 | h2
        · exfalso; rw [h1] at hpa; rw [hpa] at hc; exact Bool.noConfusion hc
        · exact h2
      simp only [List.cons_append, List.takeWhile_cons, hc, if_true]
      rw [ih hrest]
    · simp only [List.cons_append, List.takeWhile_cons]
      rw [Bool.not_eq_true] at hc
      rw [hc]
      simp

theorem rfindColon_none (s : List Char) : rfindColon s = none ↔ ':' ∉ s := by
  induction s with
  | nil => simp [rfindColon]
  | cons c rest ih =>
    simp only [rfindColon]
    cases h : rfindColon rest with
    | some i =>
      have hmem : ':' ∈ rest := by
        by_contra hn
        rw [ih.mpr hn] at h
        exact Option.noConfusion h
      simp [hmem]
    | none =>
      have hnot : ':' ∉ rest := ih.mp h
      by_cases hc : c = ':'
      · simp [hc]
      · rw [if_neg hc]
        constructor
        · intro _ hor
          rcases List.mem_cons.mp hor with h1 | h2
          · exact hc h1.symm
          · exact hnot h2
        · intro _
          rfl

theorem rfindColon_drop (s : List Char) :
    ∀ i, rfindColon s = some i → s.drop (i + 1) = suffixAfterLastColon s := by
  induction s with
  | nil => intro i h; simp [rfindColon] at h
  | cons c rest ih =>
    intro i h
    simp only [rfindColon] at h
    cases hr : rfindColon rest with
    | some j =>
      rw [hr] at h
      have hij : i = j + 1 := by
        simpa using h.symm
      subst hij
      have hmem : ':' ∈ rest := by
        by_contra hn
        rw [(rfindColon_none rest).mpr hn] at hr
        exact Option.noConfusion hr
      have hsfx : suffixAfterLastColon (c :: rest) = suffixAfterLastColon rest := by
        unfold suffixAfterLastColon
        rw [show (c :: rest).reverse = rest.reverse ++ [c] from by simp]
        rw [takeWhile_append_left rest.reverse [c] ':' (by simpa using hmem) (by simp)]
      rw [hsfx, List.drop_succ_cons]
      exact ih j hr
    | none =>
      rw [hr] at h
      have hnot : ':' ∉ rest := (rfindColon_none rest).mp hr
      by_cases hc : c = ':'
      · rw [if_pos hc] at h
        have hi : i = 0 := by simpa using h.symm
        subst hi
        have hall : ∀ x ∈ rest.reverse, (fun ch => decide (ch ≠ ':')) x = true := by
          intro x hx
          simp only [decide_eq_true_eq, ne_eq]
          intro hxc
          exact hnot (by rw [← hxc]; simpa using hx)
        unfold suffixAfterLastColon
        rw [show (c :: rest).reverse = rest.reverse ++ [c] from by simp, hc]
        rw [List.takeWhile_append_of_pos hall]
        simp
      · rw [if_neg hc] at h
        exact Option.noConfusion h

/-- C9: the ESP32 controller's `parse_neuron_id` satisfies the Pin Mapper
contract word for word: it returns `Some n` when the mapping parses as a
bare unsigned 32-bit integer `n`; otherwise, when the mapping contains `:`
and the substring after the last `:` parses as an unsigned 32-bit integer
`n`, it returns `Some n`; otherwise `None`.  (Purity is inherent in the
embedding: the function reads nothing but its argument.) -/
theorem parse_neuron_id_matches_contract (s : List Char) :
    parse_neuron_id s = resolve_neuron_id_spec s := by
  unfold parse_neuron_id resolve_neuron_id_spec
  cases parseU32 s with
  | some n => rfl
  | none =>
    cases h : rfindColon s with
    | none =>
      rw [if_neg ((rfindColon_none s).mp h)]
    | some i =>
      have hmem : ':' ∈ s := by
        by_contra hn
        rw [(rfindColon_none s).mpr hn] at h
        exact Option.noConfusion h
      rw [if_pos hmem]
      show parseU32 (s.drop (i + 1)) = parseU32 (suffixAfterLastColon s)
      rw [rfindColon_drop s i h]
